import Mathlib

/-!
Verification development for the codezilla-components MCP server
(`src/codzilla-component/index.ts`).  The TypeScript source is shallowly
embedded: file contents are strings, the component tree is an inductive
filesystem value, stateful handlers become explicit state-passing
functions, and JavaScript regular-expression matching is reproduced by
hand-rolled scanners with the same leftmost-match backtracking behaviour
on the pattern shapes the source uses.
-/

namespace Codzilla

/-! ## Character classes (ASCII, matching JavaScript `\w` and `\s` on the
inputs that occur in source files). -/
/-- JavaScript `\w`: ASCII letters, digits and underscore. -/
def isWordChar (c : Char) : Bool :=
  c.isAlpha || c.isDigit || c = '_'

/-- JavaScript `\s` restricted to the ASCII whitespace that occurs in
source text. -/
def isWS (c : Char) : Bool :=
  c = ' ' || c = '\t' || c = '\n' || c = '\r'

/-! ## Prefix / suffix / substring machinery over `List Char`. -/
/-- `P` is a prefix of `S`. -/
def PreOf (P S : List Char) : Prop := ∃ t, S = P ++ t

/-- `P` is a suffix of `S`. -/
def SufOf (P S : List Char) : Prop := ∃ a, S = a ++ P

/-- `P` occurs (contiguously) somewhere in `S`. -/
def Occ (P S : List Char) : Prop := ∃ a b, S = a ++ P ++ b

/-- Boolean prefix test, the shape `String.prototype.startsWith` has. -/
def leadEqB : List Char → List Char → Bool
  | [], _ => true
  | _ :: _, [] => false
  | a :: as, b :: bs => a == b && leadEqB as bs

/-- Boolean suffix test (`String.prototype.endsWith`). -/
def endsB (sfx l : List Char) : Bool :=
  leadEqB sfx.reverse l.reverse

/-- Boolean substring test (`String.prototype.includes`). -/
def subList (P : List Char) : List Char → Bool
  | [] => leadEqB P []
  | c :: S' => leadEqB P (c :: S') || subList P S'

/-! ## Splitting on a separator character (`String.prototype.split`,
`path` segments). -/
/-- Split a character list at every occurrence of `sep`; mirrors
JavaScript `s.split(sep)` (always at least one chunk, empty chunks kept). -/
def splitCh (sep : Char) : List Char → List (List Char)
  | [] => [[]]
  | c :: rest =>
    if c = sep then [] :: splitCh sep rest
    else
      match splitCh sep rest with
      | [] => [[c]]
      | s :: ss => (c :: s) :: ss

/-- Re-join chunks with the separator; inverse of `splitCh`. -/
def joinSegs (sep : Char) : List (List Char) → List Char
  | [] => []
  | [x] => x
  | x :: xs => x ++ sep :: joinSegs sep xs

/-! ## Data model (`ComponentDefinition` from `index.ts`). -/
/-- One entry of the `props` record: `{ type: string, optional: bool }`. -/
structure PropInfo where
  type : String
  optional : Bool
deriving DecidableEq, Repr

/-- `ComponentDefinition` from `index.ts`.  `props` is an insertion-ordered
association list (JavaScript object keys keep insertion order);
`dependencies` is `none` when the field is absent (`undefined`). -/
structure ComponentDefinition where
  name : String
  path : String
  props : List (String × PropInfo)
  usage : String
  dependencies : Option (List String)
deriving DecidableEq, Repr

/-- The apostrophe character, used by the import-specifier scanner. -/
def singleQuote : Char := Char.ofNat 39

/-- `String.prototype.toLowerCase` as ASCII-style per-character folding
(`String.mapAux` does not reduce in the kernel, so the embedding maps
over the character data directly). -/
def lowerStr (s : String) : String := String.mk (s.data.map Char.toLower)

/-! ## Filesystem model.

The component tree rooted at `src/components` is a value of `FSNode`
(`none` at the root models a missing directory).  All paths are kept
relative to the project root, matching the `path.relative(process.cwd(), …)`
results in the source. -/
mutual

inductive FSNode where
  | file (content : String)
  | dir (entries : FSEntries)

inductive FSEntries where
  | nil
  | cons (name : String) (node : FSNode) (rest : FSEntries)

end

mutual

/-- `scanForComponents` body on an existing directory node. -/
def scanNode (dirPath : String) : FSNode → List String
  | .file _ => []
  | .dir entries => scanEntries dirPath entries

/-- The `for (const entry of entries)` loop of `scanForComponents`:
directories are recursed into, files ending in `.tsx` or `.ts` are
collected by full path, in entry order. -/
def scanEntries (dirPath : String) : FSEntries → List String
  | .nil => []
  | .cons nm child rest =>
    (match child with
     | .dir es => scanEntries (dirPath ++ "/" ++ nm) es
     | .file _ =>
       if endsB ".tsx".data nm.data || endsB ".ts".data nm.data then
         [dirPath ++ "/" ++ nm]
       else []) ++ scanEntries dirPath rest

end

/-- `scanForComponents` from `index.ts`: a `readdir` failure (missing
root, or the root being a plain file) is swallowed and yields the
entries collected so far, i.e. the empty list. -/
def scanForComponents (dirPath : String) (root : Option FSNode) : List String :=
  match root with
  | none => []
  | some (.file _) => []
  | some (.dir entries) => scanEntries dirPath entries

/-- The directory the loader scans (`path.join(process.cwd(), 'src',
'components')`, kept project-root-relative). -/
def componentsDir : String := "src/components"

mutual

/-- Resolve a path (as segments) inside a node; models `fs.readFile`. -/
def resolveNode (n : FSNode) (segs : List (List Char)) : Option String :=
  match n, segs with
  | .file c, [] => some c
  | .file _, _ :: _ => none
  | .dir _, [] => none
  | .dir es, s :: rest => resolveEntries es s rest

/-- Find the entry named `s` and resolve the remaining segments in it. -/
def resolveEntries (es : FSEntries) (s : List Char)
    (segs : List (List Char)) : Option String :=
  match es with
  | .nil => none
  | .cons nm child restE =>
    if nm.data = s then resolveNode child segs else resolveEntries restE s segs

end

/-- Read a file by project-root-relative path: the path must lie under
`src/components/`, and the remaining segments are resolved in the tree. -/
def readFileFS (fs : Option FSNode) (p : String) : Option String :=
  match fs with
  | none => none
  | some root =>
    if leadEqB (componentsDir.data ++ ['/']) p.data then
      resolveNode root (splitCh '/' (p.data.drop (componentsDir.data.length + 1)))
    else none

/-- `path.basename(filePath, path.extname(filePath))`: last path segment
with its final extension removed (a leading dot is not an extension). -/
def basenameNoExt (p : String) : String :=
  let seg := (p.data.reverse.takeWhile (· ≠ '/')).reverse
  match seg.reverse.dropWhile (· ≠ '.') with
  | '.' :: rest => if rest = [] then String.mk seg else String.mk rest.reverse
  | _ => String.mk seg

/-! ## Regex-based extraction (`parseComponent` helpers).

The two regular expressions of the source,
`interface\s+(\w+Props)\s*\x7b([^\x7d]+)\x7d` and
`(\w+)(\?)?:\s*([^;]+)`, are reproduced as leftmost-match scanners with
the same backtracking outcome. -/
/-- Try every start position from the left, returning the first match. -/
def scanFirst {α : Type} (f : List Char → Option α) : List Char → Option α
  | [] => f []
  | c :: rest => (f (c :: rest)).orElse (fun _ => scanFirst f rest)

/-- Match `interface\s+(\w+Props)\s*\x7b([^\x7d]+)\x7d` anchored at the
start, returning the brace-delimited body (capture group 2, the only one
the source uses).  The greedy `\w+` followed by the literal brace forces
the identifier run to end exactly in `Props`. -/
def matchInterfaceAt (cs : List Char) : Option (List Char) :=
  if leadEqB "interface".data cs then
    let r1 := cs.drop 9
    let ws := r1.takeWhile isWS
    if ws.length = 0 then none
    else
      let r2 := r1.drop ws.length
      let w := r2.takeWhile isWordChar
      if 6 ≤ w.length then
        if endsB "Props".data w then
          match (r2.drop w.length).dropWhile isWS with
          | '\x7b' :: r4 =>
            let body := r4.takeWhile (· ≠ '\x7d')
            if body.length = 0 then none
            else if (r4.drop body.length).length = 0 then none
            else some body
          | _ => none
        else none
      else none
  else none

/-- First match of the props-block regex anywhere in the content. -/
def findPropsBlock (cs : List Char) : Option (List Char) :=
  scanFirst matchInterfaceAt cs

/-- Match `\s*([^;]+)` after the colon of a prop line: greedy whitespace
skip, then at least one non-semicolon character (backtracking one
whitespace character when the remainder starts with `;` or is empty). -/
def matchPropTail (r : List Char) : Option (List Char) :=
  let k := (r.takeWhile isWS).length
  match r.drop k with
  | [] => if k = 0 then none else some ((r.drop (k - 1)).takeWhile (· ≠ ';'))
  | c :: rest =>
    if c = ';' then
      if k = 0 then none else some ((r.drop (k - 1)).takeWhile (· ≠ ';'))
    else some ((c :: rest).takeWhile (· ≠ ';'))

/-- Match `(\w+)(\?)?:\s*([^;]+)` anchored at the start: identifier,
optional question mark, colon, then the type expression. -/
def matchPropAt (cs : List Char) : Option (String × Bool × List Char) :=
  let w := cs.takeWhile isWordChar
  if w.length = 0 then none
  else
    match cs.drop w.length with
    | '?' :: ':' :: r2 => (matchPropTail r2).map (fun t => (String.mk w, true, t))
    | ':' :: r2 => (matchPropTail r2).map (fun t => (String.mk w, false, t))
    | _ => none

/-- JavaScript `String.prototype.trim` on the whitespace of source text. -/
def trimChars (l : List Char) : List Char :=
  ((l.dropWhile isWS).reverse.dropWhile isWS).reverse

/-- JavaScript object update `acc[k] = v`: an existing key keeps its
position and gets the new value, a new key is appended. -/
def upsert (k : String) (v : PropInfo) :
    List (String × PropInfo) → List (String × PropInfo)
  | [] => [(k, v)]
  | (k', v') :: rest =>
    if k' = k then (k', v) :: rest else (k', v') :: upsert k v rest

/-- The `propLines.reduce` step of `parseComponent`: split the block body
into lines, drop blank and `//` lines, trim, and record the first
prop-pattern match of each line. -/
def extractProps (body : List Char) : List (String × PropInfo) :=
  let lines :=
    ((splitCh '\n' body).filter
      (fun l => !(trimChars l).isEmpty && !leadEqB "//".data (trimChars l))).map trimChars
  lines.foldl
    (fun acc line =>
      match scanFirst matchPropAt line with
      | some (w, opt, ty) => upsert w ⟨String.mk (trimChars ty), opt⟩ acc
      | none => acc) []

/-- `getExampleValue` from `index.ts`: ordered substring checks on the
type string. -/
def getExampleValue (ty : String) : String :=
  if subList "string".data ty.data then "\"example\""
  else if subList "number".data ty.data then "42"
  else if subList "boolean".data ty.data then "true"
  else if subList "function".data ty.data || subList "=>".data ty.data then "() => \x7b\x7d"
  else if subList "[]".data ty.data then "[]"
  else "\x7b\x7d"

/-- JavaScript `Array.prototype.join(sep)`. -/
def joinSep (sep : String) : List String → String
  | [] => ""
  | [x] => x
  | x :: xs => x ++ sep ++ joinSep sep xs

/-- `generateUsageExample` from `index.ts`: join `name=\x7bvalue\x7d`
fragments for the non-optional props with single spaces; an empty
fragment string (JavaScript falsiness) omits the leading space. -/
def generateUsageExample (componentName : String)
    (props : List (String × PropInfo)) : String :=
  let requiredProps :=
    joinSep " "
      ((props.filter (fun p => !p.2.optional)).map
        (fun p => p.1 ++ "=\x7b" ++ getExampleValue p.2.type ++ "\x7d"))
  "<" ++ componentName ++ (if requiredProps = "" then "" else " " ++ requiredProps) ++ " />"

/-- Match `from\s+['"]([^'"]+)['"]` anchored at the start, returning the
specifier and the remaining text after the closing quote. -/
def matchFromAt (cs : List Char) : Option (String × List Char) :=
  if leadEqB "from".data cs then
    let r1 := cs.drop 4
    let ws := r1.takeWhile isWS
    if ws.length = 0 then none
    else
      match r1.drop ws.length with
      | q :: r2 =>
        if q = singleQuote || q = '"' then
          let spec := r2.takeWhile (fun c => c ≠ singleQuote && c ≠ '"')
          if spec.length = 0 then none
          else
            match r2.drop spec.length with
            | q2 :: rest =>
              if q2 = singleQuote || q2 = '"' then some (String.mk spec, rest)
              else none
            | [] => none
        else none
      | [] => none
  else none

/-- First `from`-clause at or after the current position. -/
def scanFrom : List Char → Option (String × List Char)
  | [] => none
  | c :: rest => (matchFromAt (c :: rest)).orElse (fun _ => scanFrom rest)

/-- Models `extractDependencies`: the global
`import\s+.*\s+from\s+['"]([^'"]+)['"]` pass followed by the per-match
`from`-clause extraction collapses to collecting, for each `import`
keyword followed by whitespace, the specifier of the next `from` clause.
The fuel argument (initially the text length) only bounds the recursion. -/
def extractDepsAux : Nat → List Char → List String
  | 0, _ => []
  | _, [] => []
  | fuel + 1, c :: rest =>
    if leadEqB "import".data (c :: rest) then
      let r1 := (c :: rest).drop 6
      if (r1.takeWhile isWS).length = 0 then extractDepsAux fuel rest
      else
        match scanFrom r1 with
        | some (spec, after) => spec :: extractDepsAux fuel after
        | none => extractDepsAux fuel rest
    else extractDepsAux fuel rest

/-- `extractDependencies` from `index.ts`. -/
def extractDependencies (content : String) : List String :=
  extractDepsAux content.data.length content.data

/-- `parseComponent` from `index.ts`.  A file-read failure takes the
`catch` branch and yields the minimal fallback record; otherwise props,
usage and dependencies are extracted from the content.  `path.relative`
is the identity here because all paths are already project-root-relative. -/
def parseComponent (fs : Option FSNode) (filePath : String) : ComponentDefinition :=
  let base := basenameNoExt filePath
  match readFileFS fs filePath with
  | none =>
    { name := base, path := filePath, props := [],
      usage := "<" ++ base ++ " />", dependencies := none }
  | some content =>
    let props :=
      match findPropsBlock content.data with
      | none => []
      | some body => extractProps body
    { name := base, path := filePath, props := props,
      usage := generateUsageExample base props,
      dependencies := some (extractDependencies content) }

/-- `getDefaultComponents` from `index.ts`: the two built-in records. -/
def getDefaultComponents : List ComponentDefinition :=
  [{ name := "Preview",
     path := "src/components/Preview.tsx",
     props := [("code", ⟨"string", false⟩)],
     usage := "<Preview code=\x7bgeneratedCode\x7d />",
     dependencies := some ["react"] },
   { name := "FileExplorer",
     path := "src/components/FileExplorer.tsx",
     props := [("files", ⟨"GeneratedFile[]", false⟩),
               ("onOpenFile", ⟨"(file: GeneratedFile) => void", false⟩),
               ("onDeleteFile", ⟨"(path: string) => void", false⟩)],
     usage := "<FileExplorer files=\x7bfiles\x7d onOpenFile=\x7bhandleOpenFile\x7d onDeleteFile=\x7bhandleDeleteFile\x7d />",
     dependencies := some ["react"] }]

/-- `loadComponents` from `index.ts`: scan, then parse every discovered
file (`Promise.all` keeps discovery order).  The surrounding `try/catch`
would substitute `getDefaultComponents`, but the scanner and parser
handle their errors internally, so the body never throws and the model
is total. -/
def loadComponents (fs : Option FSNode) : List ComponentDefinition :=
  (scanForComponents componentsDir fs).map (parseComponent fs)

/-! ## Cache guard and operations.

Every tool handler and resource handler in the source begins with
`if (this.componentsCache.length === 0) await this.loadComponents();`.
That shared guard is modelled once: given the current cache it returns
the list the handler will use and whether the loader ran. -/
/-- The lazy-load guard shared by `getComponents`, `getComponentByName`
and both resource handlers. -/
def cacheOrLoad (fs : Option FSNode) (cache : List ComponentDefinition) :
    List ComponentDefinition × Bool :=
  if cache.length = 0 then (loadComponents fs, true) else (cache, false)

/-- The category filter predicate of `getComponents`:
`comp.path.includes('/'+category+'/') || comp.name.toLowerCase().includes(category)`. -/
def categoryMatch (category : String) (comp : ComponentDefinition) : Bool :=
  subList ('/' :: (category.data ++ ['/'])) comp.path.data ||
    subList category.data (lowerStr comp.name).data

/-- The filtering step of `getComponents` applied to the cached list. -/
def getComponentsFiltered (cache : List ComponentDefinition)
    (category : String) : List ComponentDefinition :=
  if category = "all" then cache else cache.filter (categoryMatch category)

/-- `getComponentByName` from `index.ts`: first case-insensitive exact
match; a miss throws ``Component ${name} not found``. -/
def getComponentByName (cache : List ComponentDefinition) (name : String) :
    Except String ComponentDefinition :=
  match cache.find? (fun comp => lowerStr comp.name == lowerStr name) with
  | some comp => .ok comp
  | none => .error ("Component " ++ name ++ " not found")

/-! ## JSON serialization (`JSON.stringify`). -/
/-- JSON values; object fields keep insertion order. -/
inductive JVal where
  | str (s : String)
  | num (n : Int)
  | bool (b : Bool)
  | null
  | arr (xs : List JVal)
  | obj (fields : List (String × JVal))

/-- JSON string escaping for the characters that occur in this system. -/
def escapeJsonChar (c : Char) : List Char :=
  if c = '"' then ['\\', '"']
  else if c = '\\' then ['\\', '\\']
  else if c = '\n' then ['\\', 'n']
  else if c = '\t' then ['\\', 't']
  else if c = '\r' then ['\\', 'r']
  else [c]

/-- The escaped character sequence of a JSON string body. -/
def escapeList (s : String) : List Char :=
  (s.data.map escapeJsonChar).flatten

/-- Escape and quote a JSON string. -/
def quoteJson (s : String) : String :=
  "\"" ++ String.mk (escapeList s) ++ "\""

mutual

/-- `JSON.stringify(v)` (no indent argument): compact separators. -/
def stringifyCompact : JVal → String
  | .str s => quoteJson s
  | .num n => toString n
  | .bool b => if b then "true" else "false"
  | .null => "null"
  | .arr xs => "[" ++ String.intercalate "," (stringifyCompactList xs) ++ "]"
  | .obj fs => "\x7b" ++ String.intercalate "," (stringifyCompactFields fs) ++ "\x7d"

/-- Compact serialization of array elements. -/
def stringifyCompactList : List JVal → List String
  | [] => []
  | v :: rest => stringifyCompact v :: stringifyCompactList rest

/-- Compact serialization of object fields. -/
def stringifyCompactFields : List (String × JVal) → List String
  | [] => []
  | (k, v) :: rest => (quoteJson k ++ ":" ++ stringifyCompact v) :: stringifyCompactFields rest

end

/-- `n` spaces. -/
def indentStr (n : Nat) : String := String.mk (List.replicate n ' ')

mutual

/-- `JSON.stringify(v, null, 2)`: two-space pretty printing, with empty
arrays and objects kept on one line. -/
def stringifyPretty (indent : Nat) : JVal → String
  | .str s => quoteJson s
  | .num n => toString n
  | .bool b => if b then "true" else "false"
  | .null => "null"
  | .arr [] => "[]"
  | .arr (x :: xs) =>
    "[\n" ++ String.intercalate ",\n" (stringifyPrettyList (indent + 2) (x :: xs)) ++
      "\n" ++ indentStr indent ++ "]"
  | .obj [] => "\x7b\x7d"
  | .obj (f :: fs) =>
    "\x7b\n" ++ String.intercalate ",\n" (stringifyPrettyFields (indent + 2) (f :: fs)) ++
      "\n" ++ indentStr indent ++ "\x7d"

/-- Pretty serialization of array elements at the given indent. -/
def stringifyPrettyList (indent : Nat) : List JVal → List String
  | [] => []
  | v :: rest => (indentStr indent ++ stringifyPretty indent v) :: stringifyPrettyList indent rest

/-- Pretty serialization of object fields at the given indent. -/
def stringifyPrettyFields (indent : Nat) : List (String × JVal) → List String
  | [] => []
  | (k, v) :: rest =>
    (indentStr indent ++ quoteJson k ++ ": " ++ stringifyPretty indent v) ::
      stringifyPrettyFields indent rest

end

/-- A `ComponentDefinition` as the JSON value `JSON.stringify` receives;
an absent `dependencies` field (`undefined`) contributes no member. -/
def componentToJson (c : ComponentDefinition) : JVal :=
  .obj ([("name", .str c.name), ("path", .str c.path),
         ("props", .obj (c.props.map
           (fun p => (p.1, .obj [("type", .str p.2.type),
                                 ("optional", .bool p.2.optional)])))),
         ("usage", .str c.usage)] ++
        (match c.dependencies with
         | some ds => [("dependencies", .arr (ds.map .str))]
         | none => []))

/-- The `component://\x7bname\x7d` resource handler from `setupResources`:
always a normal response; a miss serializes an error-describing payload
instead of failing.  The `Except` type records that the handler itself
never throws. -/
def componentResourceRead (cache : List ComponentDefinition) (name : String) :
    Except String String :=
  .ok (match cache.find? (fun c => lowerStr c.name == lowerStr name) with
       | some comp => stringifyPretty 0 (componentToJson comp)
       | none => stringifyCompact
           (.obj [("error", .str ("Component " ++ name ++ " not found"))]))

/-! ## HTTP session layer (`run` in `index.ts`).

The shared `transports` map is modelled by its key set (a list of live
session identifiers); `randomUUID` becomes an explicit `fresh` value
carried by the request. -/
/-- The JSON error body of the `POST /mcp` 400 response, by member:
`jsonrpc` records whether (and with which value) that member is present;
the constant `"id": null` member is present in every variant considered
and is not a field. -/
structure McpErrorBody where
  jsonrpc : Option String
  code : Int
  message : String
deriving DecidableEq, Repr

/-- The 400 body the source sends:
`res.status(400).json(\x7b jsonrpc: '2.0', error: \x7b code: -32000, message: 'Bad Request: No valid session ID provided' \x7d, id: null \x7d)`. -/
def badRequestBody : McpErrorBody :=
  { jsonrpc := some "2.0", code := -32000,
    message := "Bad Request: No valid session ID provided" }

/-- JavaScript truthiness of the `mcp-session-id` header value:
`undefined` and the empty string are falsy. -/
def optTruthy : Option String → Bool
  | none => false
  | some s => decide (s ≠ "")

/-- Outcome of a `POST /mcp` request. -/
inductive PostResponse where
  | handled (sessionId : String)
  | badRequest (body : McpErrorBody)
deriving DecidableEq, Repr

/-- `app.post('/mcp', …)`: reuse a live session, else create one for an
initialization request without a session header (registering `fresh` via
`onsessioninitialized`), else reply 400 and create nothing. -/
def postMcp (sessions : List String) (header : Option String)
    (isInit : Bool) (fresh : String) : PostResponse × List String :=
  if optTruthy header = true ∧ header.getD "" ∈ sessions then
    (.handled (header.getD ""), sessions)
  else if optTruthy header = false ∧ isInit then
    (.handled fresh, fresh :: sessions)
  else
    (.badRequest badRequestBody, sessions)

/-- Outcome of a `GET`/`DELETE /mcp` request
(`res.status(400).send('Invalid or missing session ID')` on a miss). -/
inductive SessionResponse where
  | handled (sessionId : String)
  | invalid (body : String)
deriving DecidableEq, Repr

/-- The plain-text 400 body of `handleSessionRequest`. -/
def invalidSessionText : String := "Invalid or missing session ID"

/-- `handleSessionRequest` for `GET /mcp`: route to the live transport or
reply 400. -/
def handleGet (sessions : List String) (header : Option String) :
    SessionResponse × List String :=
  if optTruthy header = true ∧ header.getD "" ∈ sessions then
    (.handled (header.getD ""), sessions)
  else
    (.invalid invalidSessionText, sessions)

/-- `handleSessionRequest` for `DELETE /mcp`: on a live session the SDK
transport terminates it and invokes the registered `onclose`, which
deletes the identifier's binding from the shared map. -/
def handleDelete (sessions : List String) (header : Option String) :
    SessionResponse × List String :=
  if optTruthy header = true ∧ header.getD "" ∈ sessions then
    (.handled (header.getD ""), sessions.filter (fun t => t ≠ header.getD ""))
  else
    (.invalid invalidSessionText, sessions)

/-- One inbound HTTP request; `post` carries the identifier `randomUUID`
would mint if this request creates a session. -/
inductive Req where
  | post (header : Option String) (isInit : Bool) (fresh : String)
  | get (header : Option String)
  | del (header : Option String)

/-- The `mcp-session-id` header of a request. -/
def Req.headerOf : Req → Option String
  | .post h _ _ => h
  | .get h => h
  | .del h => h

/-- The request's minted identifier (if any) differs from `s`; this is
the per-process uniqueness of `randomUUID`. -/
def Req.freshAvoids (s : String) : Req → Prop
  | .post _ _ f => f ≠ s
  | .get _ => True
  | .del _ => True

/-- A response from either endpoint shape. -/
inductive Resp where
  | fromPost (r : PostResponse)
  | fromSession (r : SessionResponse)

/-- Whether a response is one of the two invalid-session 400 errors. -/
def Resp.isErrorResp : Resp → Bool
  | .fromPost (.badRequest _) => true
  | .fromSession (.invalid _) => true
  | .fromPost (.handled _) => false
  | .fromSession (.handled _) => false

/-- Dispatch one request against the session map. -/
def stepReq (sessions : List String) : Req → Resp × List String
  | .post h isInit fresh =>
    let r := postMcp sessions h isInit fresh
    (.fromPost r.1, r.2)
  | .get h =>
    let r := handleGet sessions h
    (.fromSession r.1, r.2)
  | .del h =>
    let r := handleDelete sessions h
    (.fromSession r.1, r.2)

/-- Process a request sequence, pairing each request with its response. -/
def runTrace (sessions : List String) : List Req → List (Req × Resp)
  | [] => []
  | r :: rest =>
    let s := stepReq sessions r
    (r, s.1) :: runTrace s.2 rest

/-! ## Claim C4: the category filter. -/
/-- Modelled from the spec's words, for comparison with `categoryMatch`:
"filters to records whose `path` contains a path segment equal to the
category, OR whose `name` (case-insensitive) contains the category
string". -/
def specCategoryMatch (category : String) (comp : ComponentDefinition) : Bool :=
  decide (category.data ∈ splitCh '/' comp.path.data) ||
    subList category.data (lowerStr comp.name).data

/-- The shape of every path this system can cache: produced under
`src/components/` and ending in a recognized source extension. -/
def PathOk (c : ComponentDefinition) : Prop :=
  PreOf "src/components/".data c.path.data ∧
    (SufOf ".ts".data c.path.data ∨ SufOf ".tsx".data c.path.data)

/-! ## Claim C6: required and optional props in the usage string. -/
/-- The tail of a generated usage string after the component name: one
space-prefixed fragment per required prop, then the closing ` />`. -/
def usageTail (fr : List (List Char)) : List Char :=
  (fr.map (fun f => ' ' :: f)).flatten ++ (' ' :: '/' :: '>' :: [])

/-- The six constants `getExampleValue` can return. -/
def allowedVals : List (List Char) :=
  ["\"example\"".data, "42".data, "true".data, "() => \x7b\x7d".data,
   "[]".data, "\x7b\x7d".data]

theorem leadEqB_iff (P S : List Char) : leadEqB P S = true ↔ PreOf P S := by
  induction P generalizing S with
  | nil => simp [leadEqB, PreOf]
  | cons a as ih =>
    cases S with
    | nil =>
      simp only [leadEqB, PreOf]
      constructor
      · intro h; cases h
      · rintro ⟨t, ht⟩; cases ht
    | cons b bs =>
      simp only [leadEqB, Bool.and_eq_true, beq_iff_eq, ih, PreOf]
      constructor
      · rintro ⟨rfl, t, rfl⟩; exact ⟨t, rfl⟩
      · rintro ⟨t, ht⟩
        injection ht with h1 h2
        exact ⟨h1.symm, t, h2⟩

theorem endsB_iff (sfx l : List Char) : endsB sfx l = true ↔ SufOf sfx l := by
  rw [endsB, leadEqB_iff]
  constructor
  · rintro ⟨t, ht⟩
    refine ⟨t.reverse, ?_⟩
    have := congrArg List.reverse ht
    simpa using this
  · rintro ⟨a, rfl⟩
    exact ⟨a.reverse, by simp⟩

theorem occ_nil (P : List Char) : Occ P [] ↔ P = [] := by
  constructor
  · rintro ⟨a, b, h⟩
    rcases List.append_eq_nil.mp h.symm with ⟨h1, h2⟩
    exact (List.append_eq_nil.mp h1).2
  · rintro rfl; exact ⟨[], [], rfl⟩

theorem occ_cons (P : List Char) (c : Char) (S : List Char) :
    Occ P (c :: S) ↔ PreOf P (c :: S) ∨ Occ P S := by
  constructor
  · rintro ⟨a, b, h⟩
    cases a with
    | nil => exact Or.inl ⟨b, by simpa using h⟩
    | cons x xs =>
      injection h with h1 h2
      exact Or.inr ⟨xs, b, h2⟩
  · rintro (⟨t, ht⟩ | ⟨a, b, h⟩)
    · exact ⟨[], t, by simpa using ht⟩
    · exact ⟨c :: a, b, by simp [h]⟩

theorem subList_iff (P S : List Char) : subList P S = true ↔ Occ P S := by
  induction S with
  | nil =>
    simp only [subList, occ_nil, leadEqB_iff, PreOf]
    constructor
    · rintro ⟨t, ht⟩
      rcases List.append_eq_nil.mp ht.symm with ⟨h1, _⟩
      exact h1
    · rintro rfl; exact ⟨[], rfl⟩
  | cons c S' ih =>
    simp only [subList, Bool.or_eq_true, leadEqB_iff, ih, occ_cons]

theorem preOf_length_le {P S : List Char} (h : PreOf P S) : P.length ≤ S.length := by
  rcases h with ⟨t, rfl⟩; simp

theorem preOf_iff_take {P S : List Char} : PreOf P S ↔ S.take P.length = P := by
  constructor
  · rintro ⟨t, rfl⟩
    simp
  · intro h
    exact ⟨S.drop P.length, by conv_lhs => rw [← List.take_append_drop P.length S, h]⟩

theorem preOf_trans_le {A B S : List Char} (hA : PreOf A S) (hB : PreOf B S)
    (hle : A.length ≤ B.length) : PreOf A B := by
  rw [preOf_iff_take] at hA hB ⊢
  rw [← hB, List.take_take, Nat.min_eq_left hle, hA]

theorem sufOf_trans_le {A B S : List Char} (hA : SufOf A S) (hB : SufOf B S)
    (hle : A.length ≤ B.length) : SufOf A B := by
  rcases hA with ⟨a, rfl⟩
  rcases hB with ⟨b, hb⟩
  have hA' : PreOf A.reverse (a.reverse.reverse ++ A).reverse := ⟨a.reverse, by simp⟩
  have hB' : PreOf B.reverse (a ++ A).reverse := ⟨b.reverse, by rw [hb]; simp⟩
  have := preOf_trans_le (by simpa using hA') hB' (by simpa using hle)
  rcases this with ⟨t, ht⟩
  refine ⟨t.reverse, ?_⟩
  have := congrArg List.reverse ht
  simpa using this

theorem splitCh_ne_nil (sep : Char) (l : List Char) : splitCh sep l ≠ [] := by
  cases l with
  | nil => simp [splitCh]
  | cons c rest =>
    simp only [splitCh]
    split
    · simp
    · split <;> simp

theorem joinSegs_splitCh (sep : Char) (l : List Char) :
    joinSegs sep (splitCh sep l) = l := by
  induction l with
  | nil => simp [splitCh, joinSegs]
  | cons c rest ih =>
    simp only [splitCh]
    split
    · rename_i hc
      subst hc
      cases h : splitCh c rest with
      | nil => exact absurd h (splitCh_ne_nil c rest)
      | cons s ss =>
        rw [h] at ih
        simp [joinSegs, ih]
    · cases h : splitCh sep rest with
      | nil => exact absurd h (splitCh_ne_nil sep rest)
      | cons s ss =>
        rw [h] at ih
        cases ss with
        | nil => simpa [joinSegs] using ih
        | cons s2 ss2 => simpa [joinSegs] using ih

theorem splitCh_append_sep (sep : Char) (a b : List Char) :
    splitCh sep (a ++ sep :: b) = splitCh sep a ++ splitCh sep b := by
  induction a with
  | nil => simp [splitCh]
  | cons c a' ih =>
    by_cases hc : c = sep
    · subst hc
      simp [splitCh, ih]
    · simp only [List.cons_append, splitCh, if_neg hc, List.append_eq]
      rw [ih]
      cases h : splitCh sep a' with
      | nil => exact absurd h (splitCh_ne_nil sep a')
      | cons s ss => simp

theorem splitCh_no_sep (sep : Char) (a : List Char) (h : sep ∉ a) :
    splitCh sep a = [a] := by
  induction a with
  | nil => simp [splitCh]
  | cons c a' ih =>
    have hc : c ≠ sep := fun hcc => h (hcc ▸ List.mem_cons_self c a')
    have h' : sep ∉ a' := fun hm => h (List.mem_cons_of_mem _ hm)
    simp only [splitCh, if_neg hc]
    rw [ih h']

theorem joinSegs_append (sep : Char) (l1 l2 : List (List Char))
    (h1 : l1 ≠ []) (h2 : l2 ≠ []) :
    joinSegs sep (l1 ++ l2) = joinSegs sep l1 ++ sep :: joinSegs sep l2 := by
  induction l1 with
  | nil => exact absurd rfl h1
  | cons x xs ih =>
    cases xs with
    | nil =>
      cases l2 with
      | nil => exact absurd rfl h2
      | cons y ys => simp [joinSegs]
    | cons x2 xs2 =>
      have := ih (by simp)
      simp only [List.cons_append, joinSegs, List.append_eq]
      rw [List.cons_append] at this
      rw [this]
      simp

/-! ## Claim C1: cache load on an empty or missing root. -/
/-- C1 counterexample: with the component root directory missing, the
cache load completes with the empty list, not the two built-in default
records, because `scanForComponents` swallows the `readdir` failure into
an empty file list and the `catch` in `loadComponents` never fires. -/
theorem c1_counterexample :
    loadComponents none = [] ∧ loadComponents none ≠ getDefaultComponents := by
  constructor
  · rfl
  · intro h
    simp [loadComponents, scanForComponents, getDefaultComponents] at h

/-- C1 amended: for every run of the cache load in which the component
root directory is empty or does not exist, the resulting cached list is
empty and no error is raised; the built-in default records (which are
non-empty) are installed only if the load body itself throws, which the
scanner's and parser's internal error handling prevents in this case. -/
theorem c1_amended :
    loadComponents none = [] ∧
    loadComponents (some (.dir .nil)) = [] ∧
    getDefaultComponents ≠ [] := by
  refine ⟨rfl, by decide, ?_⟩
  simp [getDefaultComponents]

/-! ## Claim C2: parsing the `FooProps` scenario file. -/
/-- C2 counterexample: a file `Foo.tsx` whose text contains
`interface FooProps \x7b bar: string; baz?: number; \x7d` on one line
parses with only `bar` in `props` (the per-line regex captures a single
match, so `baz` is dropped) and with usage `<Foo bar=\x7b"example"\x7d />`,
not the claimed `<Foo bar="example" />`. -/
theorem c2_counterexample :
    (parseComponent
      (some (.dir (.cons "Foo.tsx"
        (.file "interface FooProps \x7b bar: string; baz?: number; \x7d") .nil)))
      "src/components/Foo.tsx").props = [("bar", ⟨"string", false⟩)] ∧
    (parseComponent
      (some (.dir (.cons "Foo.tsx"
        (.file "interface FooProps \x7b bar: string; baz?: number; \x7d") .nil)))
      "src/components/Foo.tsx").usage = "<Foo bar=\x7b\"example\"\x7d />" ∧
    "<Foo bar=\x7b\"example\"\x7d />" ≠ "<Foo bar=\"example\" />" := by
  refine ⟨by decide, by decide, by decide⟩

/-- C2 amended: for a component file `Foo.tsx` whose `FooProps` interface
body places each property on its own line, parsing produces
`props = \x7bbar: \x7btype: "string", optional: false\x7d, baz: \x7btype:
"number", optional: true\x7d\x7d` and
`usage = '<Foo bar=\x7b"example"\x7d />'` (the example value is wrapped
in braces; a single-line body yields only the line's first property). -/
theorem c2_amended :
    (parseComponent
      (some (.dir (.cons "Foo.tsx"
        (.file "interface FooProps \x7b\n  bar: string;\n  baz?: number;\n\x7d") .nil)))
      "src/components/Foo.tsx").props =
        [("bar", ⟨"string", false⟩), ("baz", ⟨"number", true⟩)] ∧
    (parseComponent
      (some (.dir (.cons "Foo.tsx"
        (.file "interface FooProps \x7b\n  bar: string;\n  baz?: number;\n\x7d") .nil)))
      "src/components/Foo.tsx").usage = "<Foo bar=\x7b\"example\"\x7d />" := by
  refine ⟨by decide, by decide⟩

/-! ## Claim C3: the cache is populated at most once. -/
/-- C3 counterexample: the guard is `componentsCache.length === 0`, so
after a first completed load that produced the empty list (missing root
directory) the very next access runs the loader again. -/
theorem c3_counterexample :
    (cacheOrLoad none []).2 = true ∧
    (cacheOrLoad none ((cacheOrLoad none []).1)).2 = true := by
  refine ⟨rfl, by decide⟩

/-- C3 amended: once the cache holds a non-empty list, every subsequent
operation or resource read returns the stored list unchanged and never
re-runs the scanner or parser; while the cache is empty (including after
a load that produced an empty list) every access re-runs the load. -/
theorem c3_amended (fs : Option FSNode) (cache : List ComponentDefinition)
    (h : cache ≠ []) : cacheOrLoad fs cache = (cache, false) := by
  rw [cacheOrLoad, if_neg]
  simpa using h

/-- Witness for `c3_amended` at the default list. -/
theorem c3_amended_witness :
    getDefaultComponents ≠ [] ∧
    cacheOrLoad none getDefaultComponents = (getDefaultComponents, false) :=
  ⟨by simp [getDefaultComponents],
   c3_amended none getDefaultComponents (by simp [getDefaultComponents])⟩

/-! ## Claim C8: bad-request handling on `POST /mcp`. -/
/-- C8 counterexample: the 400 body the server actually sends carries an
additional `"jsonrpc": "2.0"` member, so it is not the claimed body
`\x7b"error": \x7b…\x7d, "id": null\x7d` (which lacks that member). -/
theorem c8_counterexample :
    (postMcp [] none false "s1").1 = .badRequest badRequestBody ∧
    (postMcp [] none false "s1").2 = [] ∧
    badRequestBody ≠
      { jsonrpc := none, code := -32000,
        message := "Bad Request: No valid session ID provided" } := by
  refine ⟨by decide, by decide, by decide⟩

/-- C8 amended: every POST whose session identifier is missing or not
live, and which is not recognized as an initialization request, receives
HTTP 400 with the JSON body `\x7b"jsonrpc": "2.0", "error": \x7b"code":
-32000, "message": "Bad Request: No valid session ID provided"\x7d,
"id": null\x7d` (the claimed body plus the `jsonrpc` member), and no
session is created. -/
theorem c8_amended (sessions : List String) (header : Option String)
    (fresh : String)
    (hBad : header = none ∨ ∃ s, header = some s ∧ s ∉ sessions) :
    postMcp sessions header false fresh = (.badRequest badRequestBody, sessions) := by
  rcases hBad with rfl | ⟨s, rfl, hs⟩
  · simp [postMcp, optTruthy]
  · simp [postMcp, optTruthy, hs]

/-- Witness for `c8_amended` with an unknown session identifier. -/
theorem c8_amended_witness :
    postMcp [] (some "zzz") false "n1" = (.badRequest badRequestBody, []) :=
  c8_amended [] (some "zzz") "n1" (Or.inr ⟨"zzz", rfl, by simp⟩)

/-! ## Claim C10: non-live header values on `POST /mcp`. -/
/-- C10 counterexample: an empty-string `mcp-session-id` header is
falsy in JavaScript, so a POST that carries the header with value `""`
and a valid initialization body creates a session instead of being
rejected with HTTP 400. -/
theorem c10_counterexample :
    (postMcp [] (some "") true "s1").1 = .handled "s1" ∧
    (postMcp [] (some "") true "s1").2 = ["s1"] := by
  refine ⟨by decide, by decide⟩

/-- C10 amended: a new session is created only when the session
identifier header is absent or empty (JavaScript falsiness): every POST
carrying a non-empty identifier that is not a live session receives
HTTP 400 and creates no session, even when the body is a valid
initialization request. -/
theorem c10_amended (sessions : List String) (s : String) (isInit : Bool)
    (fresh : String) (hs : s ≠ "") (hmem : s ∉ sessions) :
    postMcp sessions (some s) isInit fresh =
      (.badRequest badRequestBody, sessions) := by
  simp [postMcp, optTruthy, hs, hmem]

/-- Witness for `c10_amended`: an unknown identifier alongside a live
session and an initialization body. -/
theorem c10_amended_witness :
    postMcp ["live"] (some "dead") true "n2" =
      (.badRequest badRequestBody, ["live"]) :=
  c10_amended ["live"] "dead" true "n2" (by decide) (by simp)

/-! ## Claims C5 and C7: name lookup and the resource asymmetry. -/
/-- When no cached record matches the name case-insensitively, `find?`
comes up empty. -/
theorem findName_eq_none (cache : List ComponentDefinition) (name : String)
    (habs : ∀ c ∈ cache, lowerStr c.name ≠ lowerStr name) :
    cache.find? (fun comp => lowerStr comp.name == lowerStr name) = none := by
  rw [List.find?_eq_none]
  intro c hc
  simpa using habs c hc

/-- C5: for every name of the schema-permitted length, the operation
returns exactly one record (the first case-insensitive match) when some
cached record's name matches, and fails with the error message naming
the requested component when none does. -/
theorem c5_get_component_by_name (cache : List ComponentDefinition)
    (name : String) (h2 : 2 ≤ name.length) (h100 : name.length ≤ 100) :
    ((∃ c ∈ cache, lowerStr c.name = lowerStr name) →
       ∃ c, getComponentByName cache name = .ok c) ∧
    ((∀ c ∈ cache, lowerStr c.name ≠ lowerStr name) →
       getComponentByName cache name =
         .error ("Component " ++ name ++ " not found")) := by
  constructor
  · rintro ⟨c, hc, hname⟩
    cases h : cache.find? (fun comp => lowerStr comp.name == lowerStr name) with
    | none =>
      exfalso
      have := List.find?_eq_none.mp h c hc
      simp [hname] at this
    | some c' =>
      refine ⟨c', ?_⟩
      unfold getComponentByName
      rw [h]
  · intro habs
    unfold getComponentByName
    rw [findName_eq_none cache name habs]

/-- Witness for `c5_get_component_by_name`: the default cache holds
`Preview`, found under the lower-case query `preview`. -/
theorem c5_witness :
    (2 ≤ ("preview" : String).length ∧ ("preview" : String).length ≤ 100) ∧
    (((∃ c ∈ getDefaultComponents,
         lowerStr c.name = lowerStr "preview") →
        ∃ c, getComponentByName getDefaultComponents "preview" = .ok c) ∧
     ((∀ c ∈ getDefaultComponents,
         lowerStr c.name ≠ lowerStr "preview") →
        getComponentByName getDefaultComponents "preview" =
          .error ("Component " ++ "preview" ++ " not found"))) :=
  ⟨by decide,
   c5_get_component_by_name getDefaultComponents "preview" (by decide) (by decide)⟩

theorem occ_embed {P S : List Char} (h : Occ P S) (pre post : List Char) :
    Occ P (pre ++ S ++ post) := by
  rcases h with ⟨a, b, rfl⟩
  exact ⟨pre ++ a, b ++ post, by simp⟩

theorem escapeList_append (a b : String) :
    escapeList (a ++ b) = escapeList a ++ escapeList b := by
  simp [escapeList, String.data_append]

theorem flatten_map_escape_id (l : List Char)
    (h : ∀ c ∈ l, escapeJsonChar c = [c]) :
    (l.map escapeJsonChar).flatten = l := by
  induction l with
  | nil => rfl
  | cons c cs ih =>
    rw [List.map_cons, List.flatten_cons, h c (List.mem_cons_self c cs),
      ih (fun d hd => h d (List.mem_cons_of_mem c hd))]
    rfl

theorem escapeList_id (s : String) (h : ∀ c ∈ s.data, escapeJsonChar c = [c]) :
    escapeList s = s.data :=
  flatten_map_escape_id s.data h

/-- Compact serialization of a one-field object, unfolded. -/
theorem stringify_obj_single (k : String) (v : JVal) :
    stringifyCompact (.obj [(k, v)]) =
      "\x7b" ++ (quoteJson k ++ ":" ++ stringifyCompact v) ++ "\x7d" := rfl

/-- C7: not-found handling is asymmetric.  For every absent name the
operation fails with an error naming the component, while the templated
`component://` resource read returns a normal (`.ok`) response whose
body is a payload describing the absence (it contains `not found` and,
for names without JSON-escaped characters, the requested name itself). -/
theorem c7_not_found_asymmetry (cache : List ComponentDefinition)
    (name : String) (habs : ∀ c ∈ cache, lowerStr c.name ≠ lowerStr name) :
    getComponentByName cache name =
      .error ("Component " ++ name ++ " not found") ∧
    ∃ body, componentResourceRead cache name = .ok body ∧
      Occ " not found".data body.data ∧
      ((∀ c ∈ name.data, escapeJsonChar c = [c]) → Occ name.data body.data) := by
  have hf := findName_eq_none cache name habs
  refine ⟨?_, stringifyCompact
      (.obj [("error", .str ("Component " ++ name ++ " not found"))]), ?_, ?_, ?_⟩
  · unfold getComponentByName
    rw [hf]
  · unfold componentResourceRead
    rw [hf]
  · rw [stringify_obj_single]
    have hdata : (("\x7b" ++ (quoteJson "error" ++ ":" ++
        stringifyCompact (.str ("Component " ++ name ++ " not found"))) ++
        "\x7d") : String).data =
        ("\x7b" ++ quoteJson "error" ++ ":" ++ "\"").data ++
          escapeList ("Component " ++ name ++ " not found") ++ "\"\x7d".data := by
      simp [stringifyCompact, quoteJson, String.data_append]
    rw [hdata]
    apply occ_embed
    rw [escapeList_append, show escapeList " not found" = " not found".data from rfl]
    exact ⟨escapeList ("Component " ++ name), [], by simp⟩
  · intro hnorm
    rw [stringify_obj_single]
    have hdata : (("\x7b" ++ (quoteJson "error" ++ ":" ++
        stringifyCompact (.str ("Component " ++ name ++ " not found"))) ++
        "\x7d") : String).data =
        ("\x7b" ++ quoteJson "error" ++ ":" ++ "\"").data ++
          escapeList ("Component " ++ name ++ " not found") ++ "\"\x7d".data := by
      simp [stringifyCompact, quoteJson, String.data_append]
    rw [hdata]
    apply occ_embed
    rw [escapeList_append, escapeList_append, escapeList_id name hnorm]
    exact ⟨escapeList "Component ", escapeList " not found", by simp⟩

/-- Witness for `c7_not_found_asymmetry` at the default cache and the
absent name `Missing`. -/
theorem c7_witness :
    (∀ c ∈ getDefaultComponents,
       lowerStr c.name ≠ lowerStr "Missing") ∧
    (getComponentByName getDefaultComponents "Missing" =
       .error ("Component " ++ "Missing" ++ " not found") ∧
     ∃ body, componentResourceRead getDefaultComponents "Missing" = .ok body ∧
       Occ " not found".data body.data ∧
       ((∀ c ∈ ("Missing" : String).data, escapeJsonChar c = [c]) →
          Occ ("Missing" : String).data body.data)) :=
  ⟨by decide, c7_not_found_asymmetry getDefaultComponents "Missing" (by decide)⟩

/-! ## Claim C9: terminated sessions are unusable. -/
/-- No step re-introduces an absent identifier, provided any freshly
minted identifier differs from it. -/
theorem step_preserves_absent (s : String) (sessions : List String) (r : Req)
    (hmem : s ∉ sessions) (hf : r.freshAvoids s) :
    s ∉ (stepReq sessions r).2 := by
  cases r with
  | post hdr isInit fresh =>
    by_cases h1 : optTruthy hdr = true ∧ hdr.getD "" ∈ sessions
    · simpa [stepReq, postMcp, h1] using hmem
    · by_cases h2 : optTruthy hdr = false ∧ isInit = true
      · simp only [stepReq, postMcp, if_neg h1, if_pos h2]
        intro hin
        rcases List.mem_cons.mp hin with rfl | hin2
        · exact hf rfl
        · exact hmem hin2
      · simpa [stepReq, postMcp, if_neg h1, if_neg h2] using hmem
  | get hdr =>
    by_cases h1 : optTruthy hdr = true ∧ hdr.getD "" ∈ sessions <;>
      simpa [stepReq, handleGet, h1] using hmem
  | del hdr =>
    by_cases h1 : optTruthy hdr = true ∧ hdr.getD "" ∈ sessions
    · simp only [stepReq, handleDelete, if_pos h1]
      intro hin
      exact hmem (List.mem_filter.mp hin).1
    · simpa [stepReq, handleDelete, h1] using hmem

/-- A request carrying a non-empty identifier that is not live is
answered by one of the two invalid-session errors, on every method. -/
theorem step_rejects (s : String) (sessions : List String) (r : Req)
    (hs : s ≠ "") (hmem : s ∉ sessions) (hh : r.headerOf = some s) :
    (stepReq sessions r).1.isErrorResp = true := by
  cases r with
  | post hdr isInit fresh =>
    simp only [Req.headerOf] at hh
    subst hh
    simp [stepReq, postMcp, optTruthy, hs, hmem, Resp.isErrorResp]
  | get hdr =>
    simp only [Req.headerOf] at hh
    subst hh
    simp [stepReq, handleGet, optTruthy, hs, hmem, Resp.isErrorResp]
  | del hdr =>
    simp only [Req.headerOf] at hh
    subst hh
    simp [stepReq, handleDelete, optTruthy, hs, hmem, Resp.isErrorResp]

/-- Along any request trace whose minted identifiers avoid `s`, an
absent `s` is rejected at every request that carries it. -/
theorem trace_all_rejected (s : String) (hs : s ≠ "") :
    ∀ (reqs : List Req) (sessions : List String), s ∉ sessions →
      (∀ r ∈ reqs, r.freshAvoids s) →
      ∀ p ∈ runTrace sessions reqs, p.1.headerOf = some s →
        p.2.isErrorResp = true := by
  intro reqs
  induction reqs with
  | nil =>
    intro sessions _ _ p hp
    simp [runTrace] at hp
  | cons r rest ih =>
    intro sessions hmem hfresh p hp hph
    simp only [runTrace] at hp
    rcases List.mem_cons.mp hp with rfl | hp2
    · exact step_rejects s sessions r hs hmem hph
    · exact ih (stepReq sessions r).2
        (step_preserves_absent s sessions r hmem
          (hfresh r (List.mem_cons_self r rest)))
        (fun q hq => hfresh q (List.mem_cons_of_mem r hq))
        p hp2 hph

/-- C9: terminating a live session removes its identifier from the
shared map, and — as long as later minted identifiers are fresh, which
models `randomUUID` uniqueness — every subsequent `GET`, `POST` or
`DELETE` carrying that identifier yields the invalid-session error. -/
theorem c9_session_terminated_forever (sessions : List String) (s : String)
    (reqs : List Req) (hs : s ≠ "") (hlive : s ∈ sessions)
    (hfresh : ∀ r ∈ reqs, r.freshAvoids s) :
    s ∉ (handleDelete sessions (some s)).2 ∧
    ∀ p ∈ runTrace (handleDelete sessions (some s)).2 reqs,
      p.1.headerOf = some s → p.2.isErrorResp = true := by
  have habs : s ∉ (handleDelete sessions (some s)).2 := by
    simp only [handleDelete, optTruthy, Option.getD]
    rw [if_pos ⟨by simpa using hs, by simpa using hlive⟩]
    intro hin
    have := (List.mem_filter.mp hin).2
    simp at this
  exact ⟨habs, trace_all_rejected s hs reqs _ habs hfresh⟩

/-- Witness for `c9_session_terminated_forever`: terminate `abc`, then
try a `GET`, a re-initializing `POST`, and a second `DELETE` with it. -/
theorem c9_witness :
    (("abc" : String) ≠ "" ∧ ("abc" : String) ∈ ["abc"]) ∧
    ("abc" ∉ (handleDelete ["abc"] (some "abc")).2 ∧
     ∀ p ∈ runTrace (handleDelete ["abc"] (some "abc")).2
         [.get (some "abc"), .post (some "abc") true "xyz", .del (some "abc")],
       p.1.headerOf = some "abc" → p.2.isErrorResp = true) :=
  ⟨⟨by decide, by simp⟩,
   c9_session_terminated_forever ["abc"] "abc"
     [.get (some "abc"), .post (some "abc") true "xyz", .del (some "abc")]
     (by decide) (by simp)
     (by
       intro r hr
       simp only [List.mem_cons, List.not_mem_nil, or_false] at hr
       rcases hr with rfl | rfl | rfl
       · trivial
       · show ("xyz" : String) ≠ "abc"
         decide
       · trivial)⟩

/-- On paths satisfying the cache invariant, the source's substring test
`path.includes('/'+cat+'/')` coincides with the spec's "contains a path
segment equal to cat": the first segment `src` and the extension-bearing
last segment can never equal the category, so segment membership is
always interior. -/
theorem seg_iff_slashes (cat p : List Char)
    (hslash : '/' ∉ cat)
    (hlen : cat.length + 1 ≤ 15)
    (hnp : leadEqB (cat ++ ['/']) "src/components/".data = false)
    (hts1 : endsB cat ".ts".data = false) (hts2 : endsB cat ".tsx".data = false)
    (hts3 : endsB ".ts".data cat = false) (hts4 : endsB ".tsx".data cat = false)
    (hpre : PreOf "src/components/".data p)
    (hsuf : SufOf ".ts".data p ∨ SufOf ".tsx".data p) :
    subList ('/' :: (cat ++ ['/'])) p = decide (cat ∈ splitCh '/' p) := by
  have hsrclen : ("src/components/".data).length = 15 := by decide
  have key : Occ ('/' :: (cat ++ ['/'])) p ↔ cat ∈ splitCh '/' p := by
    constructor
    · rintro ⟨a, b, hp'⟩
      have hp2 : p = a ++ '/' :: (cat ++ '/' :: b) := by rw [hp']; simp
      rw [hp2, splitCh_append_sep, splitCh_append_sep, splitCh_no_sep '/' cat hslash]
      simp
    · intro hm
      obtain ⟨l1, l2, hsplit⟩ := List.append_of_mem hm
      have hp := (joinSegs_splitCh '/' p).symm
      rw [hsplit] at hp
      cases l1 with
      | nil =>
        cases l2 with
        | nil =>
          simp only [List.nil_append, joinSegs] at hp
          exfalso
          have h15 := preOf_length_le hpre
          rw [hsrclen, hp] at h15
          omega
        | cons y ys =>
          simp only [List.nil_append, joinSegs] at hp
          exfalso
          have hcp : PreOf (cat ++ ['/']) p :=
            ⟨joinSegs '/' (y :: ys), by rw [hp]; simp⟩
          have hps := preOf_trans_le hcp hpre (by simp [hsrclen]; omega)
          have htrue := (leadEqB_iff _ _).mpr hps
          rw [hnp] at htrue
          exact Bool.false_ne_true htrue
      | cons x xs =>
        cases l2 with
        | nil =>
          exfalso
          rw [joinSegs_append '/' (x :: xs) [cat] (by simp) (by simp)] at hp
          have hsc : SufOf cat p :=
            ⟨joinSegs '/' (x :: xs) ++ ['/'], by rw [hp]; simp [joinSegs]⟩
          rcases hsuf with hts | htsx
          · rcases Nat.le_total cat.length (".ts".data.length) with hle | hle
            · have := sufOf_trans_le hsc hts hle
              exact absurd ((endsB_iff _ _).mpr this) (by simp [hts1])
            · have := sufOf_trans_le hts hsc hle
              exact absurd ((endsB_iff _ _).mpr this) (by simp [hts3])
          · rcases Nat.le_total cat.length (".tsx".data.length) with hle | hle
            · have := sufOf_trans_le hsc htsx hle
              exact absurd ((endsB_iff _ _).mpr this) (by simp [hts2])
            · have := sufOf_trans_le htsx hsc hle
              exact absurd ((endsB_iff _ _).mpr this) (by simp [hts4])
        | cons y ys =>
          rw [joinSegs_append '/' (x :: xs) (cat :: y :: ys) (by simp) (by simp)] at hp
          simp only [joinSegs] at hp
          exact ⟨joinSegs '/' (x :: xs), joinSegs '/' (y :: ys), by rw [hp]; simp⟩
  rw [← subList_iff] at key
  by_cases hm : cat ∈ splitCh '/' p
  · rw [key.mpr hm, decide_eq_true hm]
  · have h1 : subList ('/' :: (cat ++ ['/'])) p = false := by
      cases h : subList ('/' :: (cat ++ ['/'])) p with
      | false => rfl
      | true => exact absurd (key.mp h) hm
    rw [h1, decide_eq_false hm]

mutual

/-- Every path produced by scanning a node lies under the directory and
carries a recognized extension. -/
theorem scanNode_pathOk (d : String) (n : FSNode) :
    ∀ p ∈ scanNode d n,
      PreOf (d.data ++ ['/']) p.data ∧
        (SufOf ".ts".data p.data ∨ SufOf ".tsx".data p.data) :=
  match n with
  | .file _ => by simp [scanNode]
  | .dir es => fun p hp => scanEntries_pathOk d es p hp

/-- Every path produced by scanning an entry list lies under the
directory and carries a recognized extension. -/
theorem scanEntries_pathOk (d : String) (es : FSEntries) :
    ∀ p ∈ scanEntries d es,
      PreOf (d.data ++ ['/']) p.data ∧
        (SufOf ".ts".data p.data ∨ SufOf ".tsx".data p.data) :=
  match es with
  | .nil => by simp [scanEntries]
  | .cons nm child rest => by
    intro p hp
    cases child with
    | file content =>
      replace hp : p ∈ (if endsB ".tsx".data nm.data || endsB ".ts".data nm.data
          then [d ++ "/" ++ nm] else []) ++ scanEntries d rest := hp
      rcases List.mem_append.mp hp with h1 | h2
      · by_cases hend : (endsB ".tsx".data nm.data || endsB ".ts".data nm.data) = true
        · rw [if_pos hend] at h1
          simp only [List.mem_singleton] at h1
          subst h1
          constructor
          · exact ⟨nm.data, by simp [String.data_append]⟩
          · rcases Bool.or_eq_true_iff.mp hend with hx | hx
            · refine Or.inr ?_
              rcases (endsB_iff _ _).mp hx with ⟨a, ha⟩
              exact ⟨(d.data ++ ['/']) ++ a, by simp [String.data_append, ha]⟩
            · refine Or.inl ?_
              rcases (endsB_iff _ _).mp hx with ⟨a, ha⟩
              exact ⟨(d.data ++ ['/']) ++ a, by simp [String.data_append, ha]⟩
        · rw [if_neg hend] at h1
          simp at h1
      · exact scanEntries_pathOk d rest p h2
    | dir es2 =>
      replace hp : p ∈ scanEntries (d ++ "/" ++ nm) es2 ++ scanEntries d rest := hp
      rcases List.mem_append.mp hp with h1 | h2
      · have hrec := scanEntries_pathOk (d ++ "/" ++ nm) es2 p h1
        refine ⟨?_, hrec.2⟩
        rcases hrec.1 with ⟨t, ht⟩
        exact ⟨nm.data ++ ['/'] ++ t, by rw [ht]; simp [String.data_append]⟩
      · exact scanEntries_pathOk d rest p h2

end

/-- The path of a parsed record is the scanned file path, in both the
success and the fallback branch. -/
theorem parseComponent_path (fs : Option FSNode) (p : String) :
    (parseComponent fs p).path = p := by
  unfold parseComponent
  split <;> rfl

/-- Every record the loader can cache satisfies the path invariant. -/
theorem loadComponents_pathOk (fs : Option FSNode) :
    ∀ c ∈ loadComponents fs, PathOk c := by
  intro c hc
  rw [loadComponents] at hc
  obtain ⟨p, hp, rfl⟩ := List.mem_map.mp hc
  rw [PathOk, parseComponent_path]
  cases fs with
  | none => simp [scanForComponents] at hp
  | some root =>
    cases root with
    | file _ => simp [scanForComponents] at hp
    | dir es =>
      have h := scanEntries_pathOk componentsDir es p
        (by simpa [scanForComponents] using hp)
      have hdir : componentsDir.data ++ ['/'] = "src/components/".data := by decide
      exact ⟨hdir ▸ h.1, h.2⟩

/-- The two built-in default records satisfy the path invariant. -/
theorem defaults_pathOk : ∀ c ∈ getDefaultComponents, PathOk c := by
  intro c hc
  simp only [getDefaultComponents, List.mem_cons, List.not_mem_nil, or_false] at hc
  rcases hc with rfl | rfl
  · exact ⟨(leadEqB_iff _ _).mp (by decide), Or.inr ((endsB_iff _ _).mp (by decide))⟩
  · exact ⟨(leadEqB_iff _ _).mp (by decide), Or.inr ((endsB_iff _ _).mp (by decide))⟩

/-- C4: on every cacheable list, `get_components("all")` returns a list
of the cache's length, and for each category in `ui`/`layout`/`forms`
the code's filter returns exactly the records whose path contains a path
segment equal to the category or whose lower-cased name contains it. -/
theorem c4_get_components_filter (cache : List ComponentDefinition)
    (cat : String) (hpath : ∀ c ∈ cache, PathOk c)
    (hcat : cat = "ui" ∨ cat = "layout" ∨ cat = "forms") :
    (getComponentsFiltered cache "all").length = cache.length ∧
    getComponentsFiltered cache cat = cache.filter (specCategoryMatch cat) := by
  constructor
  · rfl
  · have hne : cat ≠ "all" := by rcases hcat with rfl | rfl | rfl <;> decide
    rw [getComponentsFiltered, if_neg hne]
    apply List.filter_congr
    intro c hc
    obtain ⟨hpre, hsuf⟩ := hpath c hc
    unfold categoryMatch specCategoryMatch
    congr 1
    rcases hcat with rfl | rfl | rfl
    · exact seg_iff_slashes _ _ (by decide) (by decide) (by decide) (by decide)
        (by decide) (by decide) (by decide) hpre hsuf
    · exact seg_iff_slashes _ _ (by decide) (by decide) (by decide) (by decide)
        (by decide) (by decide) (by decide) hpre hsuf
    · exact seg_iff_slashes _ _ (by decide) (by decide) (by decide) (by decide)
        (by decide) (by decide) (by decide) hpre hsuf

/-- Witness for `c4_get_components_filter` on the default cache and the
`ui` category. -/
theorem c4_witness :
    (∀ c ∈ getDefaultComponents, PathOk c) ∧
    ((getComponentsFiltered getDefaultComponents "all").length =
       getDefaultComponents.length ∧
     getComponentsFiltered getDefaultComponents "ui" =
       getDefaultComponents.filter (specCategoryMatch "ui")) :=
  ⟨defaults_pathOk,
   c4_get_components_filter getDefaultComponents "ui" defaults_pathOk (Or.inl rfl)⟩

theorem word_ne_space {c : Char} (h : isWordChar c = true) : c ≠ ' ' := by
  rintro rfl
  exact absurd h (by decide)

theorem occ_cons_nonspace {c : Char} (hc : c ≠ ' ') (P' S : List Char) :
    Occ (' ' :: P') (c :: S) ↔ Occ (' ' :: P') S := by
  rw [occ_cons]
  constructor
  · rintro (⟨t, ht⟩ | h)
    · injection ht with h1 _
      exact absurd h1 hc
    · exact h
  · exact Or.inr

theorem occ_append_nonspace (A : List Char) (hA : ∀ c ∈ A, c ≠ ' ')
    (P' S : List Char) : Occ (' ' :: P') (A ++ S) ↔ Occ (' ' :: P') S := by
  induction A with
  | nil => simp
  | cons c cs ih =>
    rw [List.cons_append, occ_cons_nonspace (hA c (List.mem_cons_self c cs))]
    exact ih (fun d hd => hA d (List.mem_cons_of_mem c hd))

theorem occ_mono_left {P S : List Char} (pre : List Char) (h : Occ P S) :
    Occ P (pre ++ S) := by
  rcases h with ⟨a, b, rfl⟩
  exact ⟨pre ++ a, b, by simp⟩

/-- Two word-character runs terminated by `=` agree when one text
carries both. -/
theorem word_run_eq (k : List Char) (hk : ∀ c ∈ k, isWordChar c = true) :
    ∀ (r u w : List Char), (∀ c ∈ r, isWordChar c = true) →
      k ++ '=' :: u = r ++ '=' :: w → k = r := by
  induction k with
  | nil =>
    intro r u w hr h
    cases r with
    | nil => rfl
    | cons d r' =>
      injection h with h1 _
      have := hr d (List.mem_cons_self d r')
      rw [← h1] at this
      exact absurd this (by decide)
  | cons c k' ih =>
    intro r u w hr h
    cases r with
    | nil =>
      injection h with h1 _
      have := hk c (List.mem_cons_self c k')
      rw [h1] at this
      exact absurd this (by decide)
    | cons d r' =>
      injection h with h1 h2
      have htail := ih (fun x hx => hk x (List.mem_cons_of_mem c hx)) r' u w
        (fun x hx => hr x (List.mem_cons_of_mem d hx)) h2
      rw [h1, htail]

theorem getExampleValue_mem (ty : String) :
    (getExampleValue ty).data ∈ allowedVals := by
  unfold getExampleValue
  split_ifs <;> decide

theorem usageTail_cons (f : List Char) (fr : List (List Char)) :
    usageTail (f :: fr) = ' ' :: (f ++ usageTail fr) := by
  simp [usageTail]

theorem joinSep_space_data (fs : List String) (f : String) :
    (joinSep " " (f :: fs)).data =
      f.data ++ (fs.map (fun g => ' ' :: g.data)).flatten := by
  induction fs generalizing f with
  | nil => simp [joinSep]
  | cons g gs ih =>
    show (f ++ " " ++ joinSep " " (g :: gs)).data = _
    rw [String.data_append, String.data_append, ih g]
    simp

/-- The generated usage string, as character data: the opening `<Name`,
then one space-prefixed `key=\x7bvalue\x7d` fragment per required prop,
then ` />`. -/
theorem generateUsage_data (name : String) (props : List (String × PropInfo))
    (hkeys : ∀ p ∈ props, p.1 ≠ "") :
    (generateUsageExample name props).data =
      '<' :: (name.data ++ usageTail
        (((props.filter (fun p => !p.2.optional)).map
          (fun p => p.1 ++ "=\x7b" ++ getExampleValue p.2.type ++ "\x7d")).map
            String.data)) := by
  unfold generateUsageExample
  cases hfg : (props.filter (fun p => !p.2.optional)).map
      (fun p => p.1 ++ "=\x7b" ++ getExampleValue p.2.type ++ "\x7d") with
  | nil =>
    simp only [hfg]
    simp [joinSep, usageTail, String.data_append,
      show ("<" : String).data = ['<'] from rfl,
      show (" />" : String).data = [' ', '/', '>'] from rfl]
  | cons f fs =>
    have hfmem : f ∈ (props.filter (fun p => !p.2.optional)).map
        (fun p => p.1 ++ "=\x7b" ++ getExampleValue p.2.type ++ "\x7d") := by
      rw [hfg]; exact List.mem_cons_self f fs
    have hfne : f ≠ "" := by
      obtain ⟨p, hp, rfl⟩ := List.mem_map.mp hfmem
      intro hcon
      rw [String.ext_iff] at hcon
      simp [String.data_append] at hcon
    have hne : joinSep " " (f :: fs) ≠ "" := by
      intro hcon
      rw [String.ext_iff, joinSep_space_data] at hcon
      simp at hcon
      exact hfne (String.ext (by simp [hcon.1]))
    simp only [hfg, if_neg hne]
    rw [show (("<" ++ name ++ (" " ++ joinSep " " (f :: fs)) ++ " />") : String).data
        = ("<" : String).data ++ name.data ++ ((" " : String).data ++
          (joinSep " " (f :: fs)).data) ++ (" />" : String).data from by
        simp [String.data_append]]
    rw [joinSep_space_data,
      show List.map String.data (f :: fs) = f.data :: List.map String.data fs
        from rfl,
      usageTail_cons]
    simp only [usageTail, show ("<" : String).data = ['<'] from rfl,
      show (" " : String).data = [' '] from rfl,
      show (" />" : String).data = [' ', '/', '>'] from rfl, List.map_map,
      Function.comp, List.cons_append, List.nil_append, List.append_assoc,
      List.cons.injEq, true_and]
    rfl

/-- Every fragment occurs in the tail it was joined into. -/
theorem occ_frag_usageTail (f : List Char) (fr : List (List Char))
    (hf : f ∈ fr) : Occ f (usageTail fr) := by
  induction fr with
  | nil => simp at hf
  | cons g gs ih =>
    rw [usageTail_cons]
    rcases List.mem_cons.mp hf with rfl | h2
    · exact ⟨[' '], usageTail gs, by simp⟩
    · have h3 := occ_mono_left (' ' :: g) (ih h2)
      simpa using h3

/-- No `␣key=\x7b` pattern for a word-run key distinct from every
required key occurs in a usage tail. -/
theorem no_opt_attr_in_tail (k : List Char) (hk0 : k ≠ [])
    (hkw : ∀ c ∈ k, isWordChar c = true) :
    ∀ fr : List (List Char),
      (∀ f ∈ fr, ∃ r v, f = r ++ '=' :: '\x7b' :: (v ++ ['\x7d']) ∧
        (∀ c ∈ r, isWordChar c = true) ∧ r ≠ k ∧ v ∈ allowedVals) →
      ¬ Occ (' ' :: (k ++ ['=', '\x7b'])) (usageTail fr) := by
  intro fr
  induction fr with
  | nil =>
    intro _ hocc
    rw [show usageTail [] = [' ', '/', '>'] from rfl] at hocc
    rcases (occ_cons _ _ _).mp hocc with ⟨t, ht⟩ | h2
    · injection ht with _ h3
      cases k with
      | nil => exact hk0 rfl
      | cons c k' =>
        injection h3 with h4 _
        have := hkw c (List.mem_cons_self c k')
        rw [← h4] at this
        exact absurd this (by decide)
    · rcases (occ_cons _ _ _).mp h2 with ⟨t, ht⟩ | h3
      · injection ht with h4 _
        exact absurd h4 (by decide)
      · rcases (occ_cons _ _ _).mp h3 with ⟨t, ht⟩ | h4
        · injection ht with h5 _
          exact absurd h5 (by decide)
        · rw [occ_nil] at h4
          exact absurd h4 (by simp)
  | cons f fs ih =>
    intro hfr hocc
    obtain ⟨r, v, hfeq, hrw, hrk, hv⟩ := hfr f (List.mem_cons_self f fs)
    have hIH := ih (fun g hg => hfr g (List.mem_cons_of_mem f hg))
    subst hfeq
    rw [usageTail_cons] at hocc
    rcases (occ_cons _ _ _).mp hocc with ⟨t, ht⟩ | h2
    · injection ht with _ h3
      have h4 : k ++ '=' :: ('\x7b' :: t) =
          r ++ '=' :: ('\x7b' :: (v ++ '\x7d' :: usageTail fs)) := by
        simpa [List.append_assoc] using h3.symm
      exact hrk ((word_run_eq k hkw r _ _ hrw h4)).symm
    · rw [List.append_assoc, occ_append_nonspace r
          (fun c hc => word_ne_space (hrw c hc)),
        List.cons_append, List.cons_append,
        occ_cons_nonspace (by decide), occ_cons_nonspace (by decide),
        List.append_assoc, List.singleton_append] at h2
      simp only [allowedVals, List.mem_cons, List.not_mem_nil, or_false] at hv
      rcases hv with rfl | rfl | rfl | rfl | rfl | rfl
      · rw [occ_append_nonspace _ (by decide),
          occ_cons_nonspace (by decide)] at h2
        exact hIH h2
      · rw [occ_append_nonspace _ (by decide),
          occ_cons_nonspace (by decide)] at h2
        exact hIH h2
      · rw [occ_append_nonspace _ (by decide),
          occ_cons_nonspace (by decide)] at h2
        exact hIH h2
      · simp only [show ("() => \x7b\x7d" : String).data =
            ['(', ')', ' ', '=', '>', ' ', '\x7b', '\x7d'] from rfl,
          List.cons_append, List.nil_append] at h2
        rw [occ_cons_nonspace (by decide), occ_cons_nonspace (by decide)] at h2
        rcases (occ_cons _ _ _).mp h2 with ⟨t, ht⟩ | h3
        · injection ht with _ h4
          cases k with
          | nil => exact hk0 rfl
          | cons c k' =>
            injection h4 with h5 _
            have := hkw c (List.mem_cons_self c k')
            rw [← h5] at this
            exact absurd this (by decide)
        · rw [occ_cons_nonspace (by decide), occ_cons_nonspace (by decide)] at h3
          rcases (occ_cons _ _ _).mp h3 with ⟨t, ht⟩ | h5
          · injection ht with _ h6
            cases k with
            | nil => exact hk0 rfl
            | cons c k' =>
              injection h6 with h7 _
              have := hkw c (List.mem_cons_self c k')
              rw [← h7] at this
              exact absurd this (by decide)
          · rw [occ_cons_nonspace (by decide), occ_cons_nonspace (by decide),
              occ_cons_nonspace (by decide)] at h5
            exact hIH h5
      · rw [occ_append_nonspace _ (by decide),
          occ_cons_nonspace (by decide)] at h2
        exact hIH h2
      · rw [occ_append_nonspace _ (by decide),
          occ_cons_nonspace (by decide)] at h2
        exact hIH h2

/-- C6 counterexample: the parsed record of a file `Foo.tsx` declaring
an optional prop `o` and a required prop `bar` has non-empty props, yet
its usage string `<Foo bar=\x7b42\x7d />` does contain the optional
property name `o` (inside `Foo`) as a substring. -/
theorem c6_counterexample :
    (parseComponent (some (.dir (.cons "Foo.tsx"
        (.file "interface FooProps \x7b\n  o?: string;\n  bar: number;\n\x7d") .nil)))
      "src/components/Foo.tsx").props =
        [("o", ⟨"string", true⟩), ("bar", ⟨"number", false⟩)] ∧
    (parseComponent (some (.dir (.cons "Foo.tsx"
        (.file "interface FooProps \x7b\n  o?: string;\n  bar: number;\n\x7d") .nil)))
      "src/components/Foo.tsx").usage = "<Foo bar=\x7b42\x7d />" ∧
    subList "o".data ("<Foo bar=\x7b42\x7d />" : String).data = true := by
  refine ⟨by decide, by decide, by decide⟩

/-- C6 amended: for every component name without spaces and every props
mapping with distinct, non-empty, word-character property names, the
generated usage contains, for each non-optional property, the property
name immediately followed by `=\x7bexampleValue\x7d`; and no optional
property name occurs *as an attribute*, i.e. preceded by a space and
followed by `=\x7b` (plain substring containment of optional names can
fail: the component name itself may contain them). -/
theorem c6_amended (name : String) (props : List (String × PropInfo))
    (hne : props ≠ [])
    (hkeys : ∀ p ∈ props, p.1 ≠ "" ∧ ∀ c ∈ p.1.data, isWordChar c = true)
    (hnodup : (props.map Prod.fst).Nodup)
    (hname : ∀ c ∈ name.data, c ≠ ' ') :
    (∀ p ∈ props, p.2.optional = false →
       Occ (p.1.data ++ '=' :: '\x7b' ::
           ((getExampleValue p.2.type).data ++ ['\x7d']))
         (generateUsageExample name props).data) ∧
    (∀ p ∈ props, p.2.optional = true →
       ¬ Occ (' ' :: (p.1.data ++ ['=', '\x7b']))
         (generateUsageExample name props).data) := by
  have hshape := generateUsage_data name props (fun p hp => (hkeys p hp).1)
  constructor
  · intro p hp hopt
    rw [hshape]
    have hmemfil : p ∈ props.filter (fun q => !q.2.optional) :=
      List.mem_filter.mpr ⟨hp, by simp [hopt]⟩
    have hmem3 : (p.1 ++ "=\x7b" ++ getExampleValue p.2.type ++ "\x7d").data ∈
        ((props.filter (fun q => !q.2.optional)).map
          (fun q => q.1 ++ "=\x7b" ++ getExampleValue q.2.type ++ "\x7d")).map
            String.data :=
      List.mem_map_of_mem _ (List.mem_map_of_mem _ hmemfil)
    have hocc := occ_frag_usageTail _ _ hmem3
    rw [show (p.1 ++ "=\x7b" ++ getExampleValue p.2.type ++ "\x7d").data =
        p.1.data ++ '=' :: '\x7b' ::
          ((getExampleValue p.2.type).data ++ ['\x7d']) from by
      simp [String.data_append]] at hocc
    have h2 := occ_mono_left ('<' :: name.data) hocc
    exact h2
  · intro p hp hopt hocc
    rw [hshape] at hocc
    have h1 : Occ (' ' :: (p.1.data ++ ['=', '\x7b']))
        (usageTail (((props.filter (fun q => !q.2.optional)).map
          (fun q => q.1 ++ "=\x7b" ++ getExampleValue q.2.type ++ "\x7d")).map
            String.data)) := by
      rwa [occ_cons_nonspace (by decide),
        occ_append_nonspace name.data hname] at hocc
    have hk1 := (hkeys p hp).1
    have hk0 : p.1.data ≠ [] := by
      intro hcon
      exact hk1 (String.ext (by simp [hcon]))
    refine no_opt_attr_in_tail p.1.data hk0 (hkeys p hp).2 _ ?_ h1
    intro f hf
    obtain ⟨g, hg, rfl⟩ := List.mem_map.mp hf
    obtain ⟨q, hq2, rfl⟩ := List.mem_map.mp hg
    refine ⟨q.1.data, (getExampleValue q.2.type).data, by
      simp [String.data_append], (hkeys q (List.mem_filter.mp hq2).1).2, ?_,
      getExampleValue_mem _⟩
    intro hcon
    have hq3 := List.mem_filter.mp hq2
    have hqp : q = p :=
      List.inj_on_of_nodup_map hnodup hq3.1 hp (String.ext hcon)
    rw [hqp] at hq3
    simp [hopt] at hq3

/-- Witness for `c6_amended` at a record with optional `o` and required
`bar`. -/
theorem c6_witness :
    (([("o", (⟨"string", true⟩ : PropInfo)), ("bar", ⟨"number", false⟩)] :
        List (String × PropInfo)) ≠ []) ∧
    ((∀ p ∈ ([("o", (⟨"string", true⟩ : PropInfo)),
        ("bar", ⟨"number", false⟩)] : List (String × PropInfo)),
        p.2.optional = false →
        Occ (p.1.data ++ '=' :: '\x7b' ::
            ((getExampleValue p.2.type).data ++ ['\x7d']))
          (generateUsageExample "Foo"
            [("o", ⟨"string", true⟩), ("bar", ⟨"number", false⟩)]).data) ∧
     (∀ p ∈ ([("o", (⟨"string", true⟩ : PropInfo)),
        ("bar", ⟨"number", false⟩)] : List (String × PropInfo)),
        p.2.optional = true →
        ¬ Occ (' ' :: (p.1.data ++ ['=', '\x7b']))
          (generateUsageExample "Foo"
            [("o", ⟨"string", true⟩), ("bar", ⟨"number", false⟩)]).data)) :=
  ⟨by decide,
   c6_amended "Foo" [("o", ⟨"string", true⟩), ("bar", ⟨"number", false⟩)]
     (by decide) (by decide) (by decide) (by decide)⟩


end Codzilla
